import Mathlib

/-!
Verification of the ClauseMatrix legal-document pipeline.

The definitions below are a shallow embedding of the three Python scripts
(`app.py`, `app_fully_customized.py`, `app_multi_file.py`): strings are
modelled as `String`/`List Char`, the regex-based section parser is
translated into explicit scanning functions with the exact semantics of
the pattern `SECTION\s*:([\s\S]*?)(?=\n[A-Z][A-Za-z ]+:\s*|$)` compiled
with `re.IGNORECASE`, pandas data frames become association lists with
`Option`-valued cells (`none` models a missing/NaN entry), and the
external text-generation endpoint is an abstract function parameter whose
invocations are logged explicitly.
-/

/-- Python's `\s` character class restricted to ASCII, which is the
alphabet produced by the analysis pipeline: space, tab, newline, carriage
return, vertical tab and form feed.  Also the class used by `str.strip`. -/
def pyIsSpace (c : Char) : Bool :=
  c == ' ' || c == '\t' || c == '\n' || c == '\r' || c == '\x0b' || c == '\x0c'

/-- ASCII letter, the class `[A-Za-z]`. -/
def asciiLetter (c : Char) : Bool :=
  ('A' ≤ c && c ≤ 'Z') || ('a' ≤ c && c ≤ 'z')

/-- ASCII capital letter, the class `[A-Z]` read without `re.IGNORECASE`. -/
def asciiUpper (c : Char) : Bool := 'A' ≤ c && c ≤ 'Z'

/-- The character class `[A-Za-z ]` of the heading-boundary pattern. -/
def letterOrSpace (c : Char) : Bool := asciiLetter c || c == ' '

/-- Case-insensitive character comparison, as performed by `re.IGNORECASE`
on ASCII input. -/
def lowerEq (a b : Char) : Bool := a.toLower == b.toLower

/-- Python `str.strip()`: remove trailing whitespace, then leading
whitespace (the order is immaterial; trailing first eases proofs). -/
def pyStrip (s : List Char) : List Char :=
  ((s.reverse.dropWhile pyIsSpace).reverse).dropWhile pyIsSpace

/-- `[A-Za-z ]*:` anchored at the head: scan letters/spaces and succeed
exactly when the first non-class character is a colon. -/
def afterRun : List Char → Bool
  | [] => false
  | c :: rest => if c == ':' then true else if letterOrSpace c then afterRun rest else false

/-- The heading shape `first-char` `[A-Za-z ]+` `:` anchored at the head:
one character accepted by `first`, at least one letter-or-space, then a
colon.  With `first := asciiLetter` this is the boundary
`[A-Z][A-Za-z ]+:` as compiled under `re.IGNORECASE`; with
`first := asciiUpper` it is the same boundary read case-sensitively. -/
def headingCoreWith (first : Char → Bool) : List Char → Bool
  | c :: d :: rest => first c && letterOrSpace d && afterRun rest
  | _ => false

/-- The code's lookahead alternative `\n[A-Z][A-Za-z ]+:\s*` tested at a
suffix of the subject (the trailing `\s*` always matches). -/
def headingStop (s : List Char) : Bool :=
  match s with
  | c :: t => c == '\n' && headingCoreWith asciiLetter t
  | [] => false

/-- The code's lookahead alternative `$` (no `re.MULTILINE`): end of the
subject, or the position just before a newline that ends the subject. -/
def dollarStop : List Char → Bool
  | [] => true
  | c :: t => c == '\n' && t.isEmpty

/-- The lazy group `([\s\S]*?)` followed by the lookahead
`(?=\n[A-Z][A-Za-z ]+:\s*|$)`: consume characters until the first position
at which the lookahead succeeds. -/
def lazyCapture : List Char → List Char
  | [] => []
  | c :: t => if headingStop (c :: t) || dollarStop (c :: t) then [] else c :: lazyCapture t

/-- Case-insensitive literal match of the section label at the head,
returning the remaining characters. -/
def matchLabel : List Char → List Char → Option (List Char)
  | s, [] => some s
  | [], _ :: _ => none
  | c :: s, l :: ls => if lowerEq c l then matchLabel s ls else none

/-- The prefix `SECTION\s*:` of the pattern tested at the head of `s`:
the label (case-insensitively), greedy whitespace, then a colon; returns
the characters after the colon. -/
def matchLabelColon (s label : List Char) : Option (List Char) :=
  match matchLabel s label with
  | none => none
  | some r =>
    match r.dropWhile pyIsSpace with
    | ':' :: rest => some rest
    | _ => none

/-- `re.search` of the anchor `SECTION\s*:`: try every start position from
left to right and return the characters after the colon of the leftmost
match.  (Whenever the anchor matches, the rest of the pattern always
matches, since the lazy group may run to the end of the subject where `$`
holds; hence the leftmost overall match starts at the leftmost anchor
match.) -/
def findAfterColon : List Char → List Char → Option (List Char)
  | [], label => matchLabelColon [] label
  | c :: t, label =>
    match matchLabelColon (c :: t) label with
    | some r => some r
    | none => findAfterColon t label

/-- Core of `extract_section` from `app.py` on character lists:
`m.group(1).strip() if m else "Not specified"`. -/
def extractCore (text label : List Char) : List Char :=
  match findAfterColon text label with
  | none => "Not specified".data
  | some rest => pyStrip (lazyCapture rest)

/-- `extract_section` from `app.py` (`run_app`, comparison branch):
search `rf"{section_name}\s*:([\s\S]*?)(?=\n[A-Z][A-Za-z ]+:\s*|$)"` with
`re.IGNORECASE` and return the stripped first group, else the sentinel. -/
def extract_section (analysis_text section_name : String) : String :=
  String.mk (extractCore analysis_text.data section_name.data)

/-- Split a character list at newlines, Python `str.split("\n")` style:
the result always has one more element than the number of newlines. -/
def splitOnNl : List Char → List (List Char)
  | [] => [[]]
  | c :: t =>
    if c == '\n' then [] :: splitOnNl t
    else
      match splitOnNl t with
      | [] => [[c]]
      | l :: ls => (c :: l) :: ls

/-- Tail of `"\n".join`: prepend a newline before each further line. -/
def joinRest : List (List Char) → List Char
  | [] => []
  | l :: ls => '\n' :: (l ++ joinRest ls)

/-- `"\n".join` on character lists. -/
def joinNl : List (List Char) → List Char
  | [] => []
  | l :: ls => l ++ joinRest ls

/-- Keep lines until the first one that looks like a heading under the
given first-character class. -/
def takeUntilHeading (first : Char → Bool) : List (List Char) → List (List Char)
  | [] => []
  | l :: ls => if headingCoreWith first l then [] else l :: takeUntilHeading first ls

/-- Spec reading of the captured region: everything after the colon up to
the next line that looks like a heading, or the end of the text.  The
line holding the colon is always kept; subsequent lines are kept until a
heading-shaped line. -/
def specCapture (first : Char → Bool) (s : List Char) : List Char :=
  match splitOnNl s with
  | [] => []
  | f :: r => joinNl (f :: takeUntilHeading first r)

/-- Modelled from the spec's words for the Section Parser: locate the
label (case-insensitively) followed by a colon, return everything after
the colon up to the next heading-shaped line or end of text, trimmed,
with the sentinel on a failed search.  The parameter `first` fixes what
counts as the first character of a heading line. -/
def extractSectionSpecWith (first : Char → Bool) (analysis_text section_name : String) : String :=
  match findAfterColon analysis_text.data section_name.data with
  | none => "Not specified"
  | some rest => String.mk (pyStrip (specCapture first rest))

/-- The Section Parser contract exactly as the claim words it: the
boundary is a line of *capitalized* word(s) followed by a colon. -/
def extractSectionSpecCap (analysis_text section_name : String) : String :=
  extractSectionSpecWith asciiUpper analysis_text section_name

/-- The Section Parser contract as the code implements it: under
`re.IGNORECASE` the boundary line may start with a letter of either
case. -/
def extractSectionSpec (analysis_text section_name : String) : String :=
  extractSectionSpecWith asciiLetter analysis_text section_name

/-- The fixed ordered section list of `run_app` in `app.py`. -/
def sections : List String :=
  ["Parties", "Effective Date", "Term", "Confidential Information",
   "Obligations", "Jurisdiction", "Risk Flags"]

/-- A comparison matrix as built by the code: an association list from
section label to an inner association list from filename to cell text,
both in insertion order, mirroring Python's insertion-ordered `dict`. -/
abbrev CMatrix := List (String × List (String × String))

/-- Python `dict` assignment `d[k] = v` on an association list: an
existing key keeps its position and gets the new value, a new key is
appended at the end. -/
def dictInsert (d : List (String × String)) (k v : String) : List (String × String) :=
  if d.any (fun kv => kv.1 == k) then
    d.map (fun kv => if kv.1 == k then (k, v) else kv)
  else d ++ [(k, v)]

/-- `matrix[section][fname] = val`: update the inner dict of the row
whose label is `s`. -/
def matInsert (m : CMatrix) (s k v : String) : CMatrix :=
  m.map (fun row => if row.1 == s then (row.1, dictInsert row.2 k v) else row)

/-- The inner loop `for section in sections: matrix[section][fname] = extract_section(...)`. -/
def insertDoc (m : CMatrix) (fa : String × String) : CMatrix :=
  sections.foldl (fun m s => matInsert m s fa.1 (extract_section fa.2 s)) m

/-- `matrix = {section: {} for section in sections}`. -/
def emptyMatrix : CMatrix := sections.map (fun s => (s, []))

/-- The nested loops of `run_app` in `app.py` building the comparison
matrix from the insertion-ordered `analysis_results` items. -/
def fillMatrix (analysis_results : List (String × String)) : CMatrix :=
  analysis_results.foldl insertDoc emptyMatrix

/-- `pd.DataFrame(matrix).T`: the same rows, each cell wrapped in `some`
because every cell was assigned a Python `str`; `none` models a
missing/NaN entry, which this construction never produces. -/
def dfOfMatrix (m : CMatrix) : List (String × List (String × Option String)) :=
  m.map (fun row => (row.1, row.2.map (fun c => (c.1, some c.2))))

/-- `pd.isna` on an object cell: true exactly for a missing entry.  A
Python `str` cell is never NA. -/
def pdIsna (v : Option String) : Bool := v.isNone

/-- `df.empty` for the rectangular transposed frame: no cells at all. -/
def dfEmpty (df : List (String × List (String × Option String))) : Bool :=
  df.all (fun row => row.2.isEmpty)

/-- `df.isna().all(axis=None)`: every cell is NA (vacuously true when
there are no cells). -/
def dfAllNa (df : List (String × List (String × Option String))) : Bool :=
  df.all (fun row => row.2.all (fun c => pdIsna c.2))

/-- The fallback test of `run_app`:
`df_matrix.empty or df_matrix.isna().all(axis=None)`. -/
def matrixFallback (analysis_results : List (String × String)) : Bool :=
  dfEmpty (dfOfMatrix (fillMatrix analysis_results))
    || dfAllNa (dfOfMatrix (fillMatrix analysis_results))

/-- The table `run_app` hands to `st.dataframe`: on the fallback branch
the two-column `filename → full raw analysis` frame
(`pd.DataFrame.from_dict(analysis_results, orient="index")`), otherwise
the structured matrix. -/
def displayedTable (analysis_results : List (String × String)) :
    Sum CMatrix (List (String × String)) :=
  if matrixFallback analysis_results then Sum.inr analysis_results
  else Sum.inl (fillMatrix analysis_results)

/-- The spec-shaped description of the finished matrix: one row per
section in `sections` order, and in each row one cell per input file in
input order, holding the parser's output for that (file, section) pair. -/
def canonicalMatrix (analysis_results : List (String × String)) : CMatrix :=
  sections.map (fun s => (s, analysis_results.map (fun fa => (fa.1, extract_section fa.2 s))))

/-- A document in a batch: its upload filename and the text the Text
Extractor produced for it. -/
structure UDoc where
  name : String
  text : String

/-- The per-document sentinel of `process_multiple_documents`. -/
def emptyPdfMsg : String := "⚠️ Empty or unreadable PDF."

/-- The sentinel of `process_single_document`. -/
def emptySingleMsg : String := "⚠️ The uploaded PDF appears to be empty or unreadable."

/-- `process_multiple_documents` from `app.py`.  The external
`analyze_text_full` call is the parameter `analyze`; a raised exception is
an `Except.error`, which propagates out of the loop and discards every
result accumulated so far (the caller's `try/except` only displays the
error).  The second component logs the texts actually sent to the
endpoint, in call order. -/
def process_multiple_documents (analyze : String → Except String String) :
    List UDoc → Except String (List (String × String)) × List String
  | [] => (Except.ok [], [])
  | d :: ds =>
    if d.text = "" then
      ((process_multiple_documents analyze ds).1.map (fun l => (d.name, emptyPdfMsg) :: l),
       (process_multiple_documents analyze ds).2)
    else
      match analyze d.text with
      | Except.error e => (Except.error e, [d.text])
      | Except.ok a =>
        ((process_multiple_documents analyze ds).1.map (fun l => (d.name, a) :: l),
         d.text :: (process_multiple_documents analyze ds).2)

/-- `process_single_document` from `app.py`: the empty-text check guards
the single analysis call; the second component logs the texts sent to the
endpoint. -/
def process_single_document (analyze : String → String) (text : String) :
    String × List String :=
  if text = "" then (emptySingleMsg, [])
  else (analyze text, [text])

/-- `range(0, len, n)` as the Python comprehension iterates it: the
indices below `len` that are multiples of the step. -/
def chunkStarts (len n : Nat) : List Nat :=
  (List.range len).filter (fun i => i % n == 0)

/-- `[text[i:i+n] for i in range(0, len(text), n)]` on character lists. -/
def chunks (n : Nat) (t : List Char) : List (List Char) :=
  (chunkStarts t.length n).map (fun i => (t.drop i).take n)

/-- The clause-analysis step of `app_fully_customized.py` for one file:
text over 16000 characters is cut into fixed 16000-character windows,
each summarized separately and the outputs joined with newlines;
otherwise a single call.  `analyze` is `summarize_clause` for the chosen
role; the second component logs the texts sent to the endpoint. -/
def summarizeFileFC (analyze : String → String) (text : String) :
    String × List String :=
  if text.length > 16000 then
    ((String.intercalate "\n" (((chunks 16000 text.data).map String.mk).map analyze)),
     (chunks 16000 text.data).map String.mk)
  else (analyze text, [text])

/-- `extract_text_from_pdf` from `app.py`, with a PDF modelled by the
list of its pages' `page.extract_text()` results (`none` when extraction
returns `None`): concatenate `page.extract_text() or ""` over the pages,
then `strip()`. -/
def extract_text_from_pdf (pages : List (Option String)) : String :=
  String.mk (pyStrip ((pages.map (fun p => (p.getD "").data)).flatten))

/-- `extract_text_from_pdf` from `app_fully_customized.py`:
`"\n".join(page.extract_text() for page in reader.pages if page.extract_text())`
— newline-join of the truthy page texts, with no trimming. -/
def extract_text_from_pdf_fc (pages : List (Option String)) : String :=
  String.intercalate "\n" ((pages.map (fun p => p.getD "")).filter (fun s => !(s == "")))

/-- One item of the exported word-processor document from
`app_fully_customized.py`. -/
inductive DocxItem where
  | heading : String → Nat → DocxItem
  | para : String → DocxItem
deriving DecidableEq

/-- The DOCX export loop: `docx.add_heading(filename, level=2)` then
`docx.add_paragraph(summary)` per file, in iteration order. -/
def buildDocx (results : List (String × String)) : List DocxItem :=
  results.flatMap (fun fs => [DocxItem.heading fs.1 2, DocxItem.para fs.2])

/-- The XLSX export loop of `app_fully_customized.py`:
`ws.append(["Filename", "Clause Analysis"])` then one
`ws.append([filename, summary])` per file, in iteration order. -/
def buildXlsxRows (results : List (String × String)) : List (List String) :=
  ["Filename", "Clause Analysis"] :: results.map (fun fs => [fs.1, fs.2])

/-- Python `text[:n]`. -/
def pyTake (n : Nat) (s : String) : String := String.mk (s.data.take n)

/-- Constant part of the prompt f-string in `app_multi_file.py` before
the interpolated document text. -/
def mfPromptPre : String :=
  "\n        Summarize the following legal document with detailed sections.\n        If any info is missing, write \"Not specified\".\n\n        Sections to include:\n        1. Parties\n        2. Effective Date (start, end, renewal terms)\n        3. Term (duration)\n        4. Confidential Information\n        5. Obligations\n        6. Jurisdiction\n        7. Risk Flags\n\n        Document text and any Form Fields:\n        "

/-- The prompt built in the summarization loop of `app_multi_file.py`:
the fixed instruction with only `text[:8000]` interpolated, followed by
the closing indentation of the f-string. -/
def mfPrompt (text : String) : String :=
  mfPromptPre ++ pyTake 8000 text ++ "\n        "

/-- The complete request `app_multi_file.py` sends: the fixed model name
and the single user message. -/
def mfRequest (text : String) : String × String := ("gpt-4o-mini", mfPrompt text)

/-- Substring test on character lists: Python `needle in hay`. -/
def isSubstring (needle hay : List Char) : Bool :=
  (List.range (hay.length + 1)).any (fun i => needle.isPrefixOf (hay.drop i))

/-- The section extraction of `app_multi_file.py` (lines 90-99): the
first line of the summary that contains the label, compared
case-insensitively, is returned whole; a miss maps to the sentinel.
Empty `found` is falsy in Python, so it also yields the sentinel. -/
def findSectionLine (summary label : String) : String :=
  match (splitOnNl summary.data).find?
      (fun line => isSubstring (label.data.map Char.toLower) (line.map Char.toLower)) with
  | some l => if l.isEmpty then "Not specified" else String.mk l
  | none => "Not specified"

theorem splitOnNl_ne_nil (s : List Char) : splitOnNl s ≠ [] := by
  induction s with
  | nil => simp [splitOnNl]
  | cons c t ih =>
    simp only [splitOnNl]
    by_cases hc : c == '\n'
    · simp [hc]
    · simp only [hc, if_false]
      cases h : splitOnNl t with
      | nil => simp
      | cons l ls => simp

theorem splitOnNl_head (s : List Char) :
    (splitOnNl s).head? = some (s.takeWhile (fun c => !(c == '\n'))) := by
  induction s with
  | nil => simp [splitOnNl, List.takeWhile]
  | cons c t ih =>
    simp only [splitOnNl, List.takeWhile]
    by_cases hc : c == '\n'
    · simp [hc]
    · simp only [hc, if_false, Bool.not_false]
      cases h : splitOnNl t with
      | nil => exact absurd h (splitOnNl_ne_nil t)
      | cons l ls =>
        rw [h] at ih
        simp only [List.head?] at ih ⊢
        simp only [Option.some.injEq] at ih
        simp [ih]

theorem afterRun_takeWhile (u : List Char) :
    afterRun (u.takeWhile (fun c => !(c == '\n'))) = afterRun u := by
  induction u with
  | nil => simp [List.takeWhile]
  | cons c t ih =>
    simp only [List.takeWhile]
    by_cases hc : c == '\n'
    · have hc' : c = '\n' := by simpa using hc
      subst hc'
      simp [afterRun, letterOrSpace, asciiLetter]
    · simp only [hc, Bool.not_false]
      simp only [afterRun]
      by_cases h1 : c == ':'
      · simp [h1]
      · simp only [h1, if_false]
        by_cases h2 : letterOrSpace c
        · simp [h2, ih]
        · simp [h2]

theorem headingCore_takeWhile (first : Char → Bool) (hf : first '\n' = false) (t : List Char) :
    headingCoreWith first (t.takeWhile (fun c => !(c == '\n'))) = headingCoreWith first t := by
  cases t with
  | nil => simp [List.takeWhile]
  | cons c u =>
    by_cases hc : c == '\n'
    · have hc' : c = '\n' := by simpa using hc
      subst hc'
      cases u with
      | nil => simp [List.takeWhile, headingCoreWith, hf]
      | cons d v => simp [List.takeWhile, headingCoreWith, hf]
    · cases u with
      | nil =>
        simp [List.takeWhile, hc, headingCoreWith]
      | cons d v =>
        by_cases hd : d == '\n'
        · have hd' : d = '\n' := by simpa using hd
          subst hd'
          simp only [List.takeWhile, hc, Bool.not_false, if_true, Bool.not_true]
          simp [headingCoreWith, letterOrSpace, asciiLetter]
        · simp only [List.takeWhile, hc, hd, Bool.not_false, if_true]
          simp only [headingCoreWith]
          rw [afterRun_takeWhile v]

theorem pyStrip_append_nl (x : List Char) : pyStrip (x ++ ['\n']) = pyStrip x := by
  have h : pyIsSpace '\n' = true := by decide
  simp [pyStrip, List.dropWhile, h]

theorem specCapture_eq_lazyCapture (s : List Char) :
    specCapture asciiLetter s = lazyCapture s ∨
    specCapture asciiLetter s = lazyCapture s ++ ['\n'] := by
  induction s with
  | nil =>
    left
    simp [specCapture, splitOnNl, joinNl, joinRest, lazyCapture, takeUntilHeading]
  | cons c t ih =>
    by_cases hc : c = '\n'
    · subst hc
      by_cases ht : t = []
      · subst ht
        right
        simp [specCapture, splitOnNl, takeUntilHeading, headingCoreWith, joinNl, joinRest,
              lazyCapture, headingStop, dollarStop]
      · cases hsp : splitOnNl t with
        | nil => exact absurd hsp (splitOnNl_ne_nil t)
        | cons f r =>
          have hf : f = t.takeWhile (fun c => !(c == '\n')) := by
            have h := splitOnNl_head t
            rw [hsp] at h
            simpa using h
          by_cases hH : headingCoreWith asciiLetter t
          · left
            have hhead : headingCoreWith asciiLetter f = true := by
              rw [hf, headingCore_takeWhile asciiLetter (by decide) t]
              exact hH
            simp [specCapture, splitOnNl, hsp, takeUntilHeading, hhead, joinNl, joinRest,
                  lazyCapture, headingStop, hH]
          · have hhead : headingCoreWith asciiLetter f = false := by
              rw [hf, headingCore_takeWhile asciiLetter (by decide) t]
              simpa using hH
            have hH' : headingCoreWith asciiLetter t = false := by simpa using hH
            have hlz : lazyCapture ('\n' :: t) = '\n' :: lazyCapture t := by
              simp [lazyCapture, headingStop, hH', dollarStop, ht]
            have hspec :
                specCapture asciiLetter ('\n' :: t) = '\n' :: specCapture asciiLetter t := by
              simp [specCapture, splitOnNl, hsp, takeUntilHeading, hhead, joinNl, joinRest]
            rw [hlz, hspec]
            rcases ih with h | h
            · left
              rw [h]
            · right
              rw [h]
              rfl
    · have hH : headingStop (c :: t) = false := by
        simp [headingStop, hc]
      have hD : dollarStop (c :: t) = false := by
        simp [dollarStop, hc]
      have hlz : lazyCapture (c :: t) = c :: lazyCapture t := by
        simp [lazyCapture, hH, hD]
      cases hsp : splitOnNl t with
      | nil => exact absurd hsp (splitOnNl_ne_nil t)
      | cons f r =>
        have hspec : specCapture asciiLetter (c :: t) = c :: specCapture asciiLetter t := by
          simp [specCapture, splitOnNl, hc, hsp, joinNl, joinRest, takeUntilHeading]
        rw [hlz, hspec]
        rcases ih with h | h
        · left
          rw [h]
        · right
          rw [h]
          rfl

theorem strip_capture_eq (s : List Char) :
    pyStrip (lazyCapture s) = pyStrip (specCapture asciiLetter s) := by
  rcases specCapture_eq_lazyCapture s with h | h
  · rw [h]
  · rw [h, pyStrip_append_nl]

theorem extract_section_eq_spec (analysis_text section_name : String) :
    extract_section analysis_text section_name = extractSectionSpec analysis_text section_name := by
  unfold extract_section extractSectionSpec extractSectionSpecWith extractCore
  cases h : findAfterColon analysis_text.data section_name.data with
  | none => rfl
  | some rest => exact congrArg String.mk (strip_capture_eq rest)

theorem dropWhile_idem (p : Char → Bool) (l : List Char) :
    (l.dropWhile p).dropWhile p = l.dropWhile p := by
  induction l with
  | nil => rfl
  | cons c t ih =>
    by_cases hp : p c
    · simp [List.dropWhile_cons, hp, ih]
    · simp [List.dropWhile_cons, hp]

theorem dropWhile_fix_head {p : Char → Bool} {c : Char} {l : List Char}
    (h : List.dropWhile p (c :: l) = c :: l) : p c = false := by
  by_cases hp : p c
  · exfalso
    rw [List.dropWhile_cons, if_pos hp] at h
    have hlen := congrArg List.length h
    have hle : (List.dropWhile p l).length ≤ l.length := (List.dropWhile_suffix p).length_le
    simp at hlen
    omega
  · simpa using hp

theorem dropWhile_fix_front {p : Char → Bool} {y a w : List Char}
    (hy : y.dropWhile p = y) (hw : a ++ w = y) : a.dropWhile p = a := by
  cases a with
  | nil => rfl
  | cons c a' =>
    have hy' : y = c :: (a' ++ w) := by rw [← hw]; rfl
    have hc : p c = false := by
      apply dropWhile_fix_head (p := p) (c := c) (l := a' ++ w)
      rw [← hy']
      exact hy
    simp [List.dropWhile_cons, hc]

theorem pyStrip_f1 (s : List Char) : (pyStrip s).dropWhile pyIsSpace = pyStrip s := by
  unfold pyStrip
  exact dropWhile_idem pyIsSpace _

theorem pyStrip_f2 (s : List Char) :
    (pyStrip s).reverse.dropWhile pyIsSpace = (pyStrip s).reverse := by
  set z : List Char := (s.reverse.dropWhile pyIsSpace).reverse with hzdef
  have hps : pyStrip s = z.dropWhile pyIsSpace := rfl
  have hzfix : z.reverse.dropWhile pyIsSpace = z.reverse := by
    rw [hzdef, List.reverse_reverse]
    exact dropWhile_idem pyIsSpace s.reverse
  obtain ⟨u, hu⟩ := List.dropWhile_suffix (l := z) pyIsSpace
  have hfront : (z.dropWhile pyIsSpace).reverse ++ u.reverse = z.reverse := by
    rw [← congrArg List.reverse hu]
    simp
  rw [hps]
  exact dropWhile_fix_front hzfix hfront

theorem headingCore_mono {first : Char → Bool} {u : List Char} (w : List Char)
    (h : headingCoreWith first u = true) : headingCoreWith first (u ++ w) = true := by
  match u, h with
  | c :: d :: rest, h =>
    simp only [headingCoreWith, Bool.and_eq_true] at h
    obtain ⟨⟨h1, h2⟩, h3⟩ := h
    simp only [List.cons_append, headingCoreWith, h1, h2, Bool.true_and]
    clear h1 h2
    induction rest with
    | nil => simp [afterRun] at h3
    | cons x xs ih =>
      simp only [afterRun] at h3 ⊢
      by_cases hx : x == ':'
      · simp [hx]
      · simp only [hx, if_false] at h3 ⊢
        by_cases hl : letterOrSpace x
        · simp only [hl, if_true] at h3 ⊢
          exact ih h3
        · simp [hl] at h3

theorem headingStop_mono {u : List Char} (w : List Char)
    (h : headingStop u = true) : headingStop (u ++ w) = true := by
  match u, h with
  | c :: t, h =>
    simp only [headingStop, Bool.and_eq_true] at h
    simp only [List.cons_append, headingStop, h.1, Bool.true_and]
    exact headingCore_mono w h.2

theorem lazyCapture_front (s : List Char) : ∃ w, lazyCapture s ++ w = s := by
  induction s with
  | nil => exact ⟨[], rfl⟩
  | cons c t ih =>
    simp only [lazyCapture]
    by_cases h : headingStop (c :: t) || dollarStop (c :: t)
    · exact ⟨c :: t, by simp [h]⟩
    · obtain ⟨w, hw⟩ := ih
      exact ⟨w, by simp [h, hw]⟩

theorem lazyCapture_safe (s : List Char) :
    ∀ v, v <:+ lazyCapture s → headingStop v = false := by
  induction s with
  | nil =>
    intro v hv
    simp only [lazyCapture] at hv
    have : v = [] := List.eq_nil_of_suffix_nil hv
    subst this
    rfl
  | cons c t ih =>
    intro v hv
    simp only [lazyCapture] at hv
    by_cases h : headingStop (c :: t) || dollarStop (c :: t)
    · rw [if_pos h] at hv
      have : v = [] := List.eq_nil_of_suffix_nil hv
      subst this
      rfl
    · rw [if_neg h] at hv
      rcases List.suffix_cons_iff.mp hv with heq | hsuf
      · subst heq
        by_contra hcon
        have hstop : headingStop (c :: lazyCapture t) = true := by
          revert hcon
          cases headingStop (c :: lazyCapture t) <;> simp
        obtain ⟨w, hw⟩ := lazyCapture_front t
        have : headingStop ((c :: lazyCapture t) ++ w) = true := headingStop_mono w hstop
        rw [show (c :: lazyCapture t) ++ w = c :: t from by simp [hw]] at this
        simp [this] at h
      · exact ih v hsuf

theorem strip_lazyCapture_safe (s : List Char) :
    ∀ v, v <:+ pyStrip (lazyCapture s) → headingStop v = false := by
  intro v hv
  by_contra hcon
  have hstop : headingStop v = true := by
    revert hcon
    cases headingStop v <;> simp
  set x := lazyCapture s with hx
  have hv2 : v <:+ (x.reverse.dropWhile pyIsSpace).reverse := by
    have h1 : pyStrip x <:+ (x.reverse.dropWhile pyIsSpace).reverse := by
      unfold pyStrip
      exact List.dropWhile_suffix pyIsSpace
    exact hv.trans h1
  obtain ⟨u, hu⟩ := hv2
  obtain ⟨w, hw⟩ : ∃ w, (x.reverse.dropWhile pyIsSpace).reverse ++ w = x := by
    obtain ⟨u2, hu2⟩ := List.dropWhile_suffix (l := x.reverse) pyIsSpace
    refine ⟨u2.reverse, ?_⟩
    have := congrArg List.reverse hu2
    simpa using this
  have hvw : (v ++ w) <:+ x := by
    refine ⟨u, ?_⟩
    rw [← hw, ← hu]
    simp
  have := lazyCapture_safe s (v ++ w) hvw
  rw [headingStop_mono w hstop] at this
  exact absurd this (by simp)

theorem headingStop_no_nl {l : List Char} (hnl : '\n' ∉ l) :
    ∀ v, v <:+ l → headingStop v = false := by
  intro v hv
  cases v with
  | nil => rfl
  | cons c t =>
    simp only [headingStop]
    by_cases hc : c = '\n'
    · subst hc
      exact absurd (hv.subset (by simp)) hnl
    · simp [hc]

theorem lazyCapture_full (s : List Char)
    (hsafe : ∀ v, v <:+ s → headingStop v = false)
    (hlast : ¬ (['\n'] <:+ s)) : lazyCapture s = s := by
  induction s with
  | nil => rfl
  | cons c t ih =>
    have hH : headingStop (c :: t) = false := hsafe (c :: t) (List.suffix_refl _)
    have hD : dollarStop (c :: t) = false := by
      by_cases hc : c = '\n'
      · subst hc
        by_cases ht : t = []
        · subst ht
          exact absurd (List.suffix_refl _) hlast
        · simp [dollarStop, ht]
      · simp [dollarStop, hc]
    have ih' : lazyCapture t = t := by
      apply ih
      · intro v hv
        exact hsafe v (hv.trans (List.suffix_cons c t))
      · intro hcontra
        exact hlast (hcontra.trans (List.suffix_cons c t))
    simp [lazyCapture, hH, hD, ih']

theorem matchLabel_self (label rest : List Char) :
    matchLabel (label ++ rest) label = some rest := by
  induction label with
  | nil =>
    cases rest with
    | nil => rfl
    | cons c t => rfl
  | cons l ls ih =>
    simp only [List.cons_append, matchLabel, lowerEq]
    simp [ih]

theorem findAfterColon_of_head {s label r : List Char}
    (h : matchLabelColon s label = some r) : findAfterColon s label = some r := by
  cases s with
  | nil => simpa [findAfterColon] using h
  | cons c t => simp [findAfterColon, h]

theorem findAfterColon_reattach (label e : List Char) :
    findAfterColon (label ++ ':' :: ' ' :: e) label = some (' ' :: e) := by
  apply findAfterColon_of_head
  unfold matchLabelColon
  rw [matchLabel_self label (':' :: ' ' :: e)]
  have hp : pyIsSpace ':' = false := by decide
  simp [List.dropWhile_cons, hp]

theorem pyStrip_space_cons (e : List Char)
    (hF1 : e.dropWhile pyIsSpace = e)
    (hF2 : e.reverse.dropWhile pyIsSpace = e.reverse) :
    pyStrip (' ' :: e) = e := by
  unfold pyStrip
  have hsp : pyIsSpace ' ' = true := by decide
  cases hrev : e.reverse with
  | nil =>
    have he : e = [] := by simpa using congrArg List.reverse hrev
    subst he
    simp [List.dropWhile_cons, hsp]
  | cons d y =>
    rw [hrev] at hF2
    have hd : pyIsSpace d = false := dropWhile_fix_head hF2
    have hstep : (' ' :: e).reverse.dropWhile pyIsSpace = (' ' :: e).reverse := by
      have : (' ' :: e).reverse = d :: (y ++ [' ']) := by simp [hrev]
      rw [this, List.dropWhile_cons, if_neg (by simp [hd])]
    rw [hstep]
    simp only [List.reverse_reverse]
    rw [List.dropWhile_cons, if_pos hsp, hF1]

theorem last_not_nl_of_f2 {e : List Char}
    (hF2 : e.reverse.dropWhile pyIsSpace = e.reverse) : ¬ (['\n'] <:+ e) := by
  rintro ⟨u, hu⟩
  have hrev : e.reverse = '\n' :: u.reverse := by
    rw [← hu]
    simp
  rw [hrev] at hF2
  have := dropWhile_fix_head hF2
  simp [pyIsSpace] at this

theorem extract_reattach_core (label e : List Char)
    (hsafe : ∀ v, v <:+ e → headingStop v = false)
    (hF1 : e.dropWhile pyIsSpace = e)
    (hF2 : e.reverse.dropWhile pyIsSpace = e.reverse) :
    extractCore (label ++ ':' :: ' ' :: e) label = e := by
  have hsafe' : ∀ v, v <:+ (' ' :: e) → headingStop v = false := by
    intro v hv
    rcases List.suffix_cons_iff.mp hv with heq | hsuf
    · subst heq
      simp [headingStop]
    · exact hsafe v hsuf
  have hlast' : ¬ (['\n'] <:+ (' ' :: e)) := by
    intro hcontra
    rcases List.suffix_cons_iff.mp hcontra with heq | hsuf
    · simp at heq
    · exact last_not_nl_of_f2 hF2 hsuf
  unfold extractCore
  rw [findAfterColon_reattach label e]
  show pyStrip (lazyCapture (' ' :: e)) = e
  rw [lazyCapture_full (' ' :: e) hsafe' hlast']
  exact pyStrip_space_cons e hF1 hF2

theorem matFold_map (k : String) (vf : String → String) :
    ∀ (ls : List String), ls.Nodup → ∀ (m : CMatrix),
      ls.foldl (fun m s => matInsert m s k (vf s)) m
        = m.map (fun row => if row.1 ∈ ls then (row.1, dictInsert row.2 k (vf row.1)) else row) := by
  intro ls
  induction ls with
  | nil =>
    intro _ m
    simp
  | cons s ls' ih =>
    intro hnd m
    have hs : s ∉ ls' := by
      simp only [List.nodup_cons] at hnd
      exact hnd.1
    have hnd' : ls'.Nodup := by
      simp only [List.nodup_cons] at hnd
      exact hnd.2
    simp only [List.foldl_cons]
    rw [ih hnd' (matInsert m s k (vf s))]
    unfold matInsert
    rw [List.map_map]
    apply List.map_congr_left
    intro row _
    simp only [Function.comp_apply]
    by_cases hrs : row.1 = s
    · simp only [hrs, beq_self_eq_true, if_true]
      simp [hs, hrs]
    · have hrs' : (row.1 == s) = false := by simpa using hrs
      simp only [hrs', if_false]
      by_cases hmem : row.1 ∈ ls'
      · simp [hmem, hrs]
      · simp [hmem, hrs]

theorem insertDoc_eq_map (m : CMatrix) (fa : String × String) :
    insertDoc m fa
      = m.map (fun row =>
          if row.1 ∈ sections then (row.1, dictInsert row.2 fa.1 (extract_section fa.2 row.1))
          else row) := by
  unfold insertDoc
  exact matFold_map fa.1 (fun s => extract_section fa.2 s) sections (by decide) m

theorem dictInsert_fresh (d : List (String × String)) (k v : String)
    (h : ∀ kv ∈ d, kv.1 ≠ k) : dictInsert d k v = d ++ [(k, v)] := by
  unfold dictInsert
  rw [if_neg]
  simp only [List.any_eq_true, not_exists]
  intro kv hmem
  exact (h kv hmem.1) (by simpa using hmem.2)

theorem fillMatrix_canonical (ar : List (String × String))
    (hnd : (ar.map Prod.fst).Nodup) : fillMatrix ar = canonicalMatrix ar := by
  induction ar using List.reverseRecOn with
  | nil =>
    unfold fillMatrix canonicalMatrix emptyMatrix
    simp
  | append_singleton ar fa ih =>
    have hnd2 : (ar.map Prod.fst).Nodup ∧ fa.1 ∉ ar.map Prod.fst := by
      rw [List.map_append] at hnd
      rcases List.nodup_append.mp hnd with ⟨h1, _, h3⟩
      exact ⟨h1, fun hmem => h3 hmem (by simp)⟩
    have hfill : fillMatrix (ar ++ [fa]) = insertDoc (fillMatrix ar) fa := by
      unfold fillMatrix
      rw [List.foldl_append]
      rfl
    rw [hfill, ih hnd2.1, insertDoc_eq_map]
    unfold canonicalMatrix
    rw [List.map_map]
    apply List.map_congr_left
    intro s hmem
    simp only [Function.comp_apply, hmem, if_true]
    rw [dictInsert_fresh]
    · simp
    · intro kv hkv
      rcases List.mem_map.mp hkv with ⟨fa', hfa', rfl⟩
      intro heq
      exact hnd2.2 (List.mem_map.mpr ⟨fa', hfa', heq⟩)

theorem matInsert_labels (m : CMatrix) (s k v : String) :
    (matInsert m s k v).map Prod.fst = m.map Prod.fst := by
  unfold matInsert
  rw [List.map_map]
  apply List.map_congr_left
  intro row _
  simp only [Function.comp_apply]
  by_cases h : row.1 == s
  · simp [h]
  · simp [h]

theorem insertDoc_labels (m : CMatrix) (fa : String × String) :
    (insertDoc m fa).map Prod.fst = m.map Prod.fst := by
  unfold insertDoc
  generalize m = m0
  induction sections generalizing m0 with
  | nil => rfl
  | cons s ls ih =>
    simp only [List.foldl_cons]
    rw [ih (matInsert m0 s fa.1 (extract_section fa.2 s)), matInsert_labels]

theorem fillMatrix_labels (ar : List (String × String)) :
    (fillMatrix ar).map Prod.fst = sections := by
  unfold fillMatrix
  have base : emptyMatrix.map Prod.fst = sections := by
    decide
  generalize hm : emptyMatrix = m0 at base
  clear hm
  induction ar generalizing m0 with
  | nil => simpa using base
  | cons fa ar' ih =>
    simp only [List.foldl_cons]
    exact ih (insertDoc m0 fa) (by rw [insertDoc_labels]; exact base)

theorem dictInsert_ne_nil (d : List (String × String)) (k v : String) :
    dictInsert d k v ≠ [] := by
  unfold dictInsert
  by_cases h : d.any (fun kv => kv.1 == k)
  · rw [if_pos h]
    cases d with
    | nil => simp [List.any_nil] at h
    | cons kv d' => simp
  · rw [if_neg h]
    simp

theorem insertDoc_filled (m : CMatrix) (fa : String × String)
    (hlab : ∀ row ∈ m, row.1 ∈ sections) :
    ∀ row ∈ insertDoc m fa, row.2 ≠ [] := by
  intro row hrow
  rw [insertDoc_eq_map] at hrow
  rcases List.mem_map.mp hrow with ⟨row0, hrow0, rfl⟩
  rw [if_pos (hlab row0 hrow0)]
  exact dictInsert_ne_nil _ _ _

theorem insertDoc_lab_mem (m : CMatrix) (fa : String × String)
    (hlab : ∀ row ∈ m, row.1 ∈ sections) :
    ∀ row ∈ insertDoc m fa, row.1 ∈ sections := by
  intro row hrow
  rw [insertDoc_eq_map] at hrow
  rcases List.mem_map.mp hrow with ⟨row0, hrow0, rfl⟩
  have h : row0.1 ∈ sections := hlab row0 hrow0
  rw [if_pos h]
  exact h

theorem foldl_insertDoc_filled (l : List (String × String)) :
    ∀ (m : CMatrix), (∀ row ∈ m, row.1 ∈ sections) → (∀ row ∈ m, row.2 ≠ []) →
      ∀ row ∈ l.foldl insertDoc m, row.2 ≠ [] := by
  induction l with
  | nil =>
    intro m _ hfill
    exact hfill
  | cons fa l' ih =>
    intro m hlab hfill
    simp only [List.foldl_cons]
    exact ih (insertDoc m fa) (insertDoc_lab_mem m fa hlab) (insertDoc_filled m fa hlab)

theorem fillMatrix_filled (ar : List (String × String)) (hne : ar ≠ []) :
    ∀ row ∈ fillMatrix ar, row.2 ≠ [] := by
  cases ar with
  | nil => exact absurd rfl hne
  | cons fa ar' =>
    unfold fillMatrix
    simp only [List.foldl_cons]
    apply foldl_insertDoc_filled ar' (insertDoc emptyMatrix fa)
    · apply insertDoc_lab_mem
      intro row hrow
      unfold emptyMatrix at hrow
      rcases List.mem_map.mp hrow with ⟨s, hs, rfl⟩
      exact hs
    · apply insertDoc_filled
      intro row hrow
      unfold emptyMatrix at hrow
      rcases List.mem_map.mp hrow with ⟨s, hs, rfl⟩
      exact hs

theorem matrixFallback_eq (ar : List (String × String)) :
    matrixFallback ar = ar.isEmpty := by
  cases ar with
  | nil => decide
  | cons fa ar' =>
    have hne : (fa :: ar') ≠ ([] : List (String × String)) := by simp
    have hfill := fillMatrix_filled (fa :: ar') hne
    have hlabels := fillMatrix_labels (fa :: ar')
    have hmne : fillMatrix (fa :: ar') ≠ [] := by
      intro hcon
      rw [hcon] at hlabels
      exact absurd hlabels.symm (by decide)
    obtain ⟨row0, hrow0⟩ := List.exists_mem_of_ne_nil _ hmne
    have hcells : row0.2 ≠ [] := hfill row0 hrow0
    obtain ⟨cell0, hcell0⟩ := List.exists_mem_of_ne_nil _ hcells
    have hE : dfEmpty (dfOfMatrix (fillMatrix (fa :: ar'))) = false := by
      rw [Bool.eq_false_iff]
      intro hall
      have := List.all_eq_true.mp hall (row0.1, row0.2.map (fun c => (c.1, some c.2)))
        (by unfold dfOfMatrix; exact List.mem_map.mpr ⟨row0, hrow0, rfl⟩)
      simp only [List.isEmpty_iff] at this
      exact hcells (by simpa using this)
    have hN : dfAllNa (dfOfMatrix (fillMatrix (fa :: ar'))) = false := by
      rw [Bool.eq_false_iff]
      intro hall
      have hrowall := List.all_eq_true.mp hall (row0.1, row0.2.map (fun c => (c.1, some c.2)))
        (by unfold dfOfMatrix; exact List.mem_map.mpr ⟨row0, hrow0, rfl⟩)
      have hcell := List.all_eq_true.mp hrowall (cell0.1, some cell0.2)
        (List.mem_map.mpr ⟨cell0, hcell0, rfl⟩)
      simp [pdIsna] at hcell
    unfold matrixFallback
    rw [hE, hN]
    rfl

theorem chunkStarts_eq (n : Nat) (hn : 0 < n) :
    ∀ L : Nat, chunkStarts L n = (List.range ((L + n - 1) / n)).map (fun j => j * n) := by
  intro L
  induction L with
  | zero =>
    unfold chunkStarts
    have h0 : (0 + n - 1) / n = 0 := Nat.div_eq_of_lt (by omega)
    rw [h0]
    simp
  | succ L ih =>
    unfold chunkStarts at ih ⊢
    rw [List.range_succ, List.filter_append, ih]
    have hq := Nat.div_add_mod L n
    have hr : L % n < n := Nat.mod_lt L hn
    by_cases hd : L % n = 0
    · have hfil : List.filter (fun i => i % n == 0) [L] = [L] := by
        simp [List.filter_cons, hd]
      have hL : L = n * (L / n) := by omega
      have hk : (L + n - 1) / n = L / n := by
        conv_lhs => rw [hL]
        have he : n * (L / n) + n - 1 = (n - 1) + n * (L / n) := by omega
        rw [he, Nat.add_mul_div_left _ _ hn, Nat.div_eq_of_lt (by omega), Nat.zero_add]
      have hk' : (L + 1 + n - 1) / n = L / n + 1 := by
        conv_lhs => rw [hL]
        have he : n * (L / n) + 1 + n - 1 = n * (L / n + 1) := by
          rw [Nat.mul_succ]
          omega
        rw [he, Nat.mul_div_cancel_left _ hn]
      have hLn : L / n * n = L := by
        rw [Nat.mul_comm]
        omega
      rw [hfil, hk, hk', List.range_succ, List.map_append]
      simp [hLn]
    · have hfil : List.filter (fun i => i % n == 0) [L] = [] := by
        simp [List.filter_cons, hd]
      have hk : (L + n - 1) / n = L / n + 1 := by
        have he : L + n - 1 = (L % n - 1) + n * (L / n + 1) := by
          rw [Nat.mul_succ]
          omega
        rw [he, Nat.add_mul_div_left _ _ hn, Nat.div_eq_of_lt (by omega), Nat.zero_add]
      have hk' : (L + 1 + n - 1) / n = L / n + 1 := by
        have he : L + 1 + n - 1 = L % n + n * (L / n + 1) := by
          rw [Nat.mul_succ]
          omega
        rw [he, Nat.add_mul_div_left _ _ hn, Nat.div_eq_of_lt hr, Nat.zero_add]
      rw [hfil, hk, hk', List.append_nil]

theorem chunks_length (n : Nat) (hn : 0 < n) (t : List Char) :
    (chunks n t).length = (t.length + n - 1) / n := by
  unfold chunks
  rw [chunkStarts_eq n hn]
  simp

theorem le_ceil_mul (L n : Nat) (hn : 0 < n) : L ≤ ((L + n - 1) / n) * n := by
  have h1 := Nat.div_add_mod (L + n - 1) n
  have h2 : (L + n - 1) % n < n := Nat.mod_lt _ hn
  have h3 : n * ((L + n - 1) / n) = ((L + n - 1) / n) * n := Nat.mul_comm _ _
  omega

theorem flatten_chunks_aux (n : Nat) :
    ∀ (k : Nat) (t : List Char), t.length ≤ k * n →
      ((List.range k).map (fun j => (t.drop (j * n)).take n)).flatten = t := by
  intro k
  induction k with
  | zero =>
    intro t ht
    simp only [Nat.zero_mul, Nat.le_zero] at ht
    rw [List.eq_nil_of_length_eq_zero ht]
    simp
  | succ k ih =>
    intro t ht
    rw [List.range_succ_eq_map]
    simp only [List.map_cons, List.map_map, List.flatten_cons, Nat.zero_mul, List.drop_zero]
    have hfun : ∀ j ∈ List.range k,
        ((fun j => (t.drop (j * n)).take n) ∘ Nat.succ) j
          = (fun j => ((t.drop n).drop (j * n)).take n) j := by
      intro j _
      simp only [Function.comp_apply]
      have he : Nat.succ j * n = n + j * n := by
        rw [Nat.succ_mul]
        omega
      rw [he, ← List.drop_drop]
    rw [List.map_congr_left hfun]
    rw [ih (t.drop n) (by simp [Nat.succ_mul] at ht ⊢; omega)]
    exact List.take_append_drop n t

theorem chunks_flatten (n : Nat) (hn : 0 < n) (t : List Char) :
    (chunks n t).flatten = t := by
  unfold chunks
  rw [chunkStarts_eq n hn, List.map_map]
  exact flatten_chunks_aux n _ t (le_ceil_mul t.length n hn)

theorem chunks_getElem (n : Nat) (hn : 0 < n) (t : List Char) (i : Nat)
    (hi : i < (chunks n t).length) :
    (chunks n t)[i]? = some ((t.drop (i * n)).take n) := by
  have hi' : i < (t.length + n - 1) / n := by
    rw [chunks_length n hn t] at hi
    exact hi
  unfold chunks
  rw [chunkStarts_eq n hn, List.map_map, List.getElem?_map]
  rw [List.getElem?_eq_getElem (by simpa using hi')]
  simp

theorem dropWhile_keeps (p : Char → Bool) (l : List Char)
    (h : ∃ c ∈ l, p c = false) : ∃ c ∈ l.dropWhile p, p c = false := by
  induction l with
  | nil => simp at h
  | cons a t ih =>
    by_cases hp : p a
    · rw [List.dropWhile_cons, if_pos hp]
      apply ih
      rcases h with ⟨c, hc, hcp⟩
      rcases List.mem_cons.mp hc with rfl | hct
      · rw [hp] at hcp
        exact absurd hcp (by simp)
      · exact ⟨c, hct, hcp⟩
    · rw [List.dropWhile_cons, if_neg hp]
      exact h

theorem pyStrip_keeps (l : List Char)
    (h : ∃ c ∈ l, pyIsSpace c = false) : pyStrip l ≠ [] := by
  unfold pyStrip
  have h1 : ∃ c ∈ l.reverse, pyIsSpace c = false := by
    rcases h with ⟨c, hc, hcp⟩
    exact ⟨c, List.mem_reverse.mpr hc, hcp⟩
  have h2 := dropWhile_keeps pyIsSpace l.reverse h1
  have h3 : ∃ c ∈ (l.reverse.dropWhile pyIsSpace).reverse, pyIsSpace c = false := by
    rcases h2 with ⟨c, hc, hcp⟩
    exact ⟨c, List.mem_reverse.mpr hc, hcp⟩
  rcases dropWhile_keeps pyIsSpace _ h3 with ⟨c, hc, _⟩
  exact List.ne_nil_of_mem hc

theorem buildDocx_cons (r : String × String) (rs : List (String × String)) :
    buildDocx (r :: rs) = DocxItem.heading r.1 2 :: DocxItem.para r.2 :: buildDocx rs := by
  simp [buildDocx]

theorem buildDocx_length (results : List (String × String)) :
    (buildDocx results).length = 2 * results.length := by
  induction results with
  | nil => rfl
  | cons r rs ih =>
    rw [buildDocx_cons]
    simp only [List.length_cons, ih]
    omega

theorem buildDocx_getElem (results : List (String × String)) (i : Nat)
    (h : i < results.length) :
    (buildDocx results)[2 * i]? = some (DocxItem.heading (results[i]).1 2) ∧
    (buildDocx results)[2 * i + 1]? = some (DocxItem.para (results[i]).2) := by
  induction results generalizing i with
  | nil => simp at h
  | cons r rs ih =>
    cases i with
    | zero =>
      rw [buildDocx_cons]
      simp
    | succ i =>
      have h' : i < rs.length := by simpa using h
      have hrec := ih i h'
      have e1 : 2 * (i + 1) = 2 * i + 1 + 1 := by omega
      rw [buildDocx_cons, e1]
      simp only [List.getElem?_cons_succ]
      constructor
      · simpa using hrec.1
      · simpa using hrec.2

/-- C1 counterexample.  A two-file batch whose analyses contain no
colon-terminated headings yields a structured table in which every cell
is the sentinel "Not specified"; yet the code's fallback test
(`df_matrix.empty or df_matrix.isna().all(axis=None)`) is false, so the
structured all-sentinel table — not the claimed two-column raw-text
fallback — is displayed. -/
theorem c1_counterexample :
    (∀ row ∈ fillMatrix [("a.pdf", "alpha beta"), ("b.pdf", "gamma delta")],
      ∀ cell ∈ row.2, cell.2 = "Not specified") ∧
    matrixFallback [("a.pdf", "alpha beta"), ("b.pdf", "gamma delta")] = false ∧
    displayedTable [("a.pdf", "alpha beta"), ("b.pdf", "gamma delta")]
      = Sum.inl (fillMatrix [("a.pdf", "alpha beta"), ("b.pdf", "gamma delta")]) := by
  decide

/-- C1 amended.  The builder's fallback test checks emptiness and NA-ness
of the frame, not the sentinel value; since extraction assigns a string
to every cell, no cell is ever NA, so the fallback triggers exactly when
the batch is empty (which the two-file guard of comparison mode rules
out), and a batch whose every cell is the sentinel still gets the
structured table. -/
theorem c1_amended (analysis_results : List (String × String)) :
    matrixFallback analysis_results = analysis_results.isEmpty ∧
    displayedTable analysis_results
      = if analysis_results.isEmpty then Sum.inr analysis_results
        else Sum.inl (fillMatrix analysis_results) := by
  refine ⟨matrixFallback_eq analysis_results, ?_⟩
  unfold displayedTable
  rw [matrixFallback_eq analysis_results]

/-- C2 counterexample.  Under `re.IGNORECASE` the boundary class `[A-Z]`
also matches lower-case letters, so the code's parser truncates at the
non-capitalized line "more stuff: x", while the claimed contract (the
boundary is a line of capitalized word(s) followed by a colon) reads on
to the end of the text; moreover the multi-file variant's line-based
extractor returns the whole matching line, not the text after the
colon. -/
theorem c2_counterexample :
    extract_section "Parties: Acme\nmore stuff: x" "Parties" = "Acme" ∧
    extractSectionSpecCap "Parties: Acme\nmore stuff: x" "Parties" = "Acme\nmore stuff: x" ∧
    ("Acme" : String) ≠ "Acme\nmore stuff: x" ∧
    findSectionLine "Parties: Acme and Beta\nJurisdiction: Delaware" "Parties"
      = "Parties: Acme and Beta" := by
  refine ⟨by decide, by decide, by decide, by decide⟩

/-- C2 amended.  The regex parser of `app.py` satisfies the claimed
contract once the heading boundary is read case-insensitively as the
code compiles it: it finds the leftmost case-insensitive occurrence of
the label followed (after optional whitespace) by a colon and returns
the trimmed text up to the next heading-shaped line of either case or
the end of text, with the sentinel "Not specified" on a failed search;
the claim's two concrete examples hold. -/
theorem c2_amended :
    (∀ analysis_text section_name : String,
      extract_section analysis_text section_name
        = extractSectionSpec analysis_text section_name) ∧
    extract_section "Parties: Acme and Beta\nJurisdiction: Delaware" "Parties"
      = "Acme and Beta" ∧
    extract_section "Parties: Acme and Beta\nJurisdiction: Delaware" "Risk Flags"
      = "Not specified" := by
  refine ⟨extract_section_eq_spec, by decide, by decide⟩

/-- C3.  For a batch with distinct filenames the structured table equals
its canonical description: exactly one row per label of the fixed
7-element section list, in that order; in every row exactly one cell per
input filename, in input order; every cell holds the parser's output for
that (file, label) pair; and a parsing miss yields the non-empty
sentinel "Not specified", never an empty or absent cell. -/
theorem c3_matrix_shape (analysis_results : List (String × String))
    (hnd : (analysis_results.map Prod.fst).Nodup) :
    fillMatrix analysis_results = canonicalMatrix analysis_results ∧
    (fillMatrix analysis_results).map Prod.fst = sections ∧
    (fillMatrix analysis_results).length = 7 ∧
    (∀ row ∈ fillMatrix analysis_results,
      row.2.map Prod.fst = analysis_results.map Prod.fst) ∧
    (∀ row ∈ fillMatrix analysis_results, ∀ cell ∈ row.2,
      ∃ fa ∈ analysis_results, cell = (fa.1, extract_section fa.2 row.1)) ∧
    (∀ analysis_text section_name : String,
      findAfterColon analysis_text.data section_name.data = none →
        extract_section analysis_text section_name = "Not specified") ∧
    ("Not specified" : String) ≠ "" := by
  have hc := fillMatrix_canonical analysis_results hnd
  refine ⟨hc, fillMatrix_labels _, ?_, ?_, ?_, ?_, by decide⟩
  · have hlen := congrArg List.length (fillMatrix_labels analysis_results)
    simpa using hlen
  · intro row hrow
    rw [hc] at hrow
    rcases List.mem_map.mp hrow with ⟨s, _, rfl⟩
    simp [canonicalMatrix]
  · intro row hrow cell hcell
    rw [hc] at hrow
    rcases List.mem_map.mp hrow with ⟨s, _, rfl⟩
    simp only at hcell
    rcases List.mem_map.mp hcell with ⟨fa, hfa, rfl⟩
    exact ⟨fa, hfa, rfl⟩
  · intro analysis_text section_name hnone
    unfold extract_section extractCore
    rw [hnone]

/-- Witness for C3 at a concrete two-file batch with distinct names. -/
theorem c3_witness :
    ((([("a.pdf", "Parties: X"), ("b.pdf", "Term: Y")] : List (String × String)).map
        Prod.fst).Nodup) ∧
    (fillMatrix [("a.pdf", "Parties: X"), ("b.pdf", "Term: Y")]).length = 7 ∧
    (fillMatrix [("a.pdf", "Parties: X"), ("b.pdf", "Term: Y")]).map Prod.fst = sections := by
  refine ⟨by decide, (c3_matrix_shape _ (by decide)).2.2.1, (c3_matrix_shape _ (by decide)).2.1⟩

/-- C4 counterexample.  In a two-document batch whose second document's
analysis raises, the whole batch becomes the error: no result list is
delivered at all, so the result already produced for the first (sibling)
document is lost, contrary to the claimed per-document containment. -/
theorem c4_counterexample :
    (process_multiple_documents
        (fun t => if t == "BADTEXT" then Except.error "boom" else Except.ok ("ok:" ++ t))
        [⟨"a.pdf", "good text"⟩, ⟨"b.pdf", "BADTEXT"⟩]).1 = Except.error "boom" ∧
    ¬ ∃ l, (process_multiple_documents
        (fun t => if t == "BADTEXT" then Except.error "boom" else Except.ok ("ok:" ++ t))
        [⟨"a.pdf", "good text"⟩, ⟨"b.pdf", "BADTEXT"⟩]).1 = Except.ok l := by
  have h : (process_multiple_documents
      (fun t => if t == "BADTEXT" then Except.error "boom" else Except.ok ("ok:" ++ t))
      [⟨"a.pdf", "good text"⟩, ⟨"b.pdf", "BADTEXT"⟩]).1 = Except.error "boom" := by
    rfl
  refine ⟨h, ?_⟩
  rintro ⟨l, hl⟩
  rw [h] at hl
  exact absurd hl (by simp)

/-- C4 amended.  An uncaught analysis error on any document aborts the
entire batch: if every earlier document either short-circuits on empty
text or analyzes successfully and some document with non-empty text
raises, the loop of `process_multiple_documents` propagates that error
and delivers no sibling results (`app.py` fail-fast behavior); only
empty-text extraction failures are contained per-document. -/
theorem c4_amended (analyze : String → Except String String)
    (pre : List UDoc) (d : UDoc) (post : List UDoc) (e : String)
    (hpre : ∀ p ∈ pre, p.text = "" ∨ ∃ a, analyze p.text = Except.ok a)
    (hd : d.text ≠ "") (he : analyze d.text = Except.error e) :
    (process_multiple_documents analyze (pre ++ d :: post)).1 = Except.error e := by
  induction pre with
  | nil =>
    rw [List.nil_append]
    unfold process_multiple_documents
    rw [if_neg hd, he]
  | cons p pre' ih =>
    have ih' := ih (fun q hq => hpre q (List.mem_cons_of_mem p hq))
    rw [List.cons_append]
    unfold process_multiple_documents
    by_cases hpe : p.text = ""
    · rw [if_pos hpe]
      simp only
      rw [ih']
      rfl
    · rw [if_neg hpe]
      rcases hpre p (List.mem_cons_self p pre') with hpe2 | ⟨a, ha⟩
      · exact absurd hpe2 hpe
      · rw [ha]
        simp only
        rw [ih']
        rfl

/-- Witness for C4: a good document followed by a failing one. -/
theorem c4_witness :
    (∀ p ∈ ([⟨"a.pdf", "good"⟩] : List UDoc), p.text = "" ∨ ∃ a,
        (fun t => if t == "BAD" then Except.error "boom" else Except.ok t) p.text
          = Except.ok a) ∧
    (UDoc.mk "b.pdf" "BAD").text ≠ "" ∧
    (fun t => if t == "BAD" then Except.error "boom" else Except.ok t)
        (UDoc.mk "b.pdf" "BAD").text = Except.error "boom" ∧
    (process_multiple_documents
        (fun t => if t == "BAD" then Except.error "boom" else Except.ok t)
        ([⟨"a.pdf", "good"⟩] ++ ⟨"b.pdf", "BAD"⟩ :: [])).1 = Except.error "boom" := by
  have hpre : ∀ p ∈ ([⟨"a.pdf", "good"⟩] : List UDoc), p.text = "" ∨ ∃ a,
      (fun t => if t == "BAD" then Except.error "boom" else Except.ok t) p.text
        = Except.ok a := by
    intro p hp
    rw [List.mem_singleton] at hp
    subst hp
    right
    exact ⟨"good", by rfl⟩
  refine ⟨hpre, by decide, by rfl, ?_⟩
  exact c4_amended _ [⟨"a.pdf", "good"⟩] ⟨"b.pdf", "BAD"⟩ [] "boom" hpre (by decide) (by rfl)

/-- C5 counterexample.  Re-parsing the parser's own extracted substring
for the same label does not return that substring: the extracted text no
longer contains the label-colon heading, so the second parse yields the
sentinel — at the spec's own synthetic example the claimed idempotence
fails. -/
theorem c5_counterexample :
    extract_section "Parties: Acme and Beta\nJurisdiction: Delaware" "Parties"
      = "Acme and Beta" ∧
    extract_section "Acme and Beta" "Parties" = "Not specified" ∧
    ("Not specified" : String) ≠ "Acme and Beta" := by
  refine ⟨by decide, by decide, by decide⟩

/-- C5 amended.  The parser is idempotent once its heading is
re-attached: re-parsing `label ++ ": " ++ extracted` for the same label
returns exactly the extracted substring, with no further truncation —
the extracted text never contains a heading boundary or trailing
whitespace that a second pass could cut. -/
theorem c5_amended (analysis_text section_name : String) :
    extract_section (section_name ++ ": " ++ extract_section analysis_text section_name)
        section_name
      = extract_section analysis_text section_name := by
  unfold extract_section
  apply congrArg String.mk
  have hdata : (section_name ++ ": "
        ++ String.mk (extractCore analysis_text.data section_name.data)).data
      = section_name.data ++ ':' :: ' ' :: extractCore analysis_text.data section_name.data := by
    show (section_name.data ++ [':', ' ']) ++ extractCore analysis_text.data section_name.data
        = section_name.data ++ ':' :: ' ' :: extractCore analysis_text.data section_name.data
    simp
  rw [hdata]
  cases h : findAfterColon analysis_text.data section_name.data with
  | none =>
    have he : extractCore analysis_text.data section_name.data = "Not specified".data := by
      unfold extractCore
      rw [h]
    rw [he]
    apply extract_reattach_core
    · exact headingStop_no_nl (by decide)
    · decide
    · decide
  | some rest =>
    have he : extractCore analysis_text.data section_name.data
        = pyStrip (lazyCapture rest) := by
      unfold extractCore
      rw [h]
    rw [he]
    apply extract_reattach_core
    · exact strip_lazyCapture_safe rest
    · exact pyStrip_f1 (lazyCapture rest)
    · exact pyStrip_f2 (lazyCapture rest)

/-- C6 counterexample.  The spreadsheet's header row is
`["Filename", "Clause Analysis"]`, not the claimed
`["Filename", "Analysis"]`. -/
theorem c6_counterexample :
    buildXlsxRows [("a.pdf", "text1"), ("b.pdf", "text2")]
      = [["Filename", "Clause Analysis"], ["a.pdf", "text1"], ["b.pdf", "text2"]] ∧
    buildXlsxRows [("a.pdf", "text1"), ("b.pdf", "text2")]
      ≠ [["Filename", "Analysis"], ["a.pdf", "text1"], ["b.pdf", "text2"]] := by
  refine ⟨by decide, by decide⟩

/-- C6 amended.  The exporter is a deterministic function of the ordered
input pairs: the spreadsheet has the header row
`["Filename", "Clause Analysis"]` followed by exactly one
`[filename, result]` row per file in input order, and the
word-processor document has exactly one heading-plus-paragraph block per
file in input order. -/
theorem c6_amended (results : List (String × String)) :
    (buildXlsxRows results).length = results.length + 1 ∧
    (buildXlsxRows results).head? = some ["Filename", "Clause Analysis"] ∧
    (∀ i, ∀ _ : i < results.length,
      (buildXlsxRows results)[i + 1]? = some [(results[i]).1, (results[i]).2]) ∧
    (buildDocx results).length = 2 * results.length ∧
    (∀ i, ∀ _ : i < results.length,
      (buildDocx results)[2 * i]? = some (DocxItem.heading (results[i]).1 2) ∧
      (buildDocx results)[2 * i + 1]? = some (DocxItem.para (results[i]).2)) := by
  refine ⟨by simp [buildXlsxRows], by simp [buildXlsxRows], ?_, buildDocx_length results, ?_⟩
  · intro i h
    simp only [buildXlsxRows, List.getElem?_cons_succ, List.getElem?_map]
    rw [List.getElem?_eq_getElem h]
    rfl
  · intro i h
    exact buildDocx_getElem results i h

/-- Witness for C6 at a concrete two-file input. -/
theorem c6_witness :
    (0 < ([("a.pdf", "text1"), ("b.pdf", "text2")] : List (String × String)).length) ∧
    (buildXlsxRows [("a.pdf", "text1"), ("b.pdf", "text2")])[1]? = some ["a.pdf", "text1"] ∧
    (buildDocx [("a.pdf", "text1"), ("b.pdf", "text2")])[0]?
      = some (DocxItem.heading "a.pdf" 2) := by
  have h := c6_amended [("a.pdf", "text1"), ("b.pdf", "text2")]
  refine ⟨by decide, ?_, ?_⟩
  · have h1 := h.2.2.1 0 (by decide)
    simpa using h1
  · have h2 := (h.2.2.2.2 0 (by decide)).1
    simpa using h2

/-- C7.  For any window size and any text longer than it, the Python
comprehension produces exactly ceil(length / window size) contiguous
windows whose concatenation restores the original text in order, with
window `i` being the characters from `i * n`; and for the code's fixed
16000-character threshold the per-window outputs are joined in original
window order with newline separators, each window sent as an independent
request to the same analyzer. -/
theorem c7_chunking (analyze : String → String) (n : Nat) (t : List Char)
    (hn : 0 < n) (_ht : n < t.length) :
    (chunks n t).length = (t.length + n - 1) / n ∧
    (chunks n t).flatten = t ∧
    (∀ i, i < (chunks n t).length → (chunks n t)[i]? = some ((t.drop (i * n)).take n)) ∧
    (16000 < t.length →
      summarizeFileFC analyze (String.mk t)
        = (String.intercalate "\n" (((chunks 16000 t).map String.mk).map analyze),
           (chunks 16000 t).map String.mk)) := by
  refine ⟨chunks_length n hn t, chunks_flatten n hn t, ?_, ?_⟩
  · intro i hi
    exact chunks_getElem n hn t i hi
  · intro h16
    unfold summarizeFileFC
    rw [if_pos (show (String.mk t).length > 16000 from h16)]

/-- Witness for C7: the spec's 20000-character text and 8000-character
window size give ceil(20000/8000) = 3 windows. -/
theorem c7_witness :
    (0 < 8000) ∧ (8000 < (List.replicate 20000 'a').length) ∧
    (chunks 8000 (List.replicate 20000 'a')).length
      = ((List.replicate 20000 'a').length + 8000 - 1) / 8000 ∧
    (chunks 8000 (List.replicate 20000 'a')).length = 3 := by
  have h8 : (0 : Nat) < 8000 := by norm_num
  have hlen : (List.replicate 20000 'a').length = 20000 := List.length_replicate 20000 'a'
  have hlt : 8000 < (List.replicate 20000 'a').length := by
    rw [hlen]
    norm_num
  have h := c7_chunking (fun s => s) 8000 (List.replicate 20000 'a') h8 hlt
  refine ⟨h8, hlt, h.1, ?_⟩
  rw [h.1, hlen]

/-- C8 counterexample.  The clause-analysis loop of
`app_fully_customized.py` has no empty-text check: an empty document is
below the 16000-character threshold, so it is sent to the endpoint as a
single (empty) request instead of short-circuiting. -/
theorem c8_counterexample :
    (summarizeFileFC (fun _ => "analysis output") "").2 = [""] ∧
    ([""] : List String) ≠ [] := by
  refine ⟨rfl, by decide⟩

/-- C8 amended.  In `app.py` both processing paths short-circuit on
empty extracted text — the single-document path returns the fixed
"empty or unreadable" message and the batch path records the per-file
sentinel, in both cases without calling the endpoint — but the
fully-customized variant lacks the check and issues one request carrying
the empty text. -/
theorem c8_amended (analyze : String → String)
    (analyzeE : String → Except String String) (text : String) (d : UDoc)
    (ds : List UDoc) (htext : text = "") (hd : d.text = "") :
    process_single_document analyze text = (emptySingleMsg, []) ∧
    process_multiple_documents analyzeE (d :: ds)
      = ((process_multiple_documents analyzeE ds).1.map
           (fun l => (d.name, emptyPdfMsg) :: l),
         (process_multiple_documents analyzeE ds).2) ∧
    (summarizeFileFC analyze text).2 = [text] := by
  subst htext
  refine ⟨by simp [process_single_document], ?_, ?_⟩
  · conv_lhs => rw [process_multiple_documents]
    rw [if_pos hd]
  · unfold summarizeFileFC
    rw [if_neg (by decide)]

/-- Witness for C8 at the empty text. -/
theorem c8_witness :
    process_single_document (fun s => s) "" = (emptySingleMsg, []) ∧
    (summarizeFileFC (fun s => s) "").2 = [""] := by
  have h := c8_amended (fun s => s) (fun s => Except.ok s) "" ⟨"a.pdf", ""⟩ [] rfl rfl
  exact ⟨h.1, h.2.2⟩

/-- C9 counterexample.  A PDF whose single page extracts to one space
has one extractable character, yet the trimmed output of the `app.py`
extractor is empty; and the fully-customized extractor joins pages with
newlines instead of plain concatenation. -/
theorem c9_counterexample :
    (([some " "] : List (Option String)).map (fun p => (p.getD "").data)).flatten.length
      = 1 ∧
    extract_text_from_pdf [some " "] = "" ∧
    extract_text_from_pdf_fc [some "a", some "b"] = "a\nb" ∧
    ("a\nb" : String) ≠ "ab" := by
  refine ⟨by decide, by decide, by decide, by decide⟩

/-- C9 amended.  The `app.py` extractor returns the page texts
concatenated in page order (a missing page contributing the empty
string) and trimmed; the output is non-empty whenever some page
contributes a non-whitespace character (whitespace-only extractions trim
to empty); an all-blank-page PDF yields exactly the empty string in both
extractor variants, the fully-customized one joining its non-empty page
texts with newlines and no trimming. -/
theorem c9_amended (pages : List (Option String)) :
    extract_text_from_pdf pages
      = String.mk (pyStrip ((pages.map (fun p => (p.getD "").data)).flatten)) ∧
    ((∃ c ∈ (pages.map (fun p => (p.getD "").data)).flatten, pyIsSpace c = false) →
      extract_text_from_pdf pages ≠ "") ∧
    ((∀ p ∈ pages, p.getD "" = "") →
      extract_text_from_pdf pages = "" ∧ extract_text_from_pdf_fc pages = "") := by
  refine ⟨rfl, ?_, ?_⟩
  · intro h hcon
    apply pyStrip_keeps _ h
    have hdata := congrArg String.data hcon
    simpa using hdata
  · intro hall
    constructor
    · have hflat : (pages.map (fun p => (p.getD "").data)).flatten = [] := by
        rw [List.flatten_eq_nil_iff]
        intro x hx
        rcases List.mem_map.mp hx with ⟨p, hp, rfl⟩
        rw [hall p hp]
      unfold extract_text_from_pdf
      rw [hflat]
      rfl
    · unfold extract_text_from_pdf_fc
      have hfil : (pages.map (fun p => p.getD "")).filter (fun s => !(s == "")) = [] := by
        rw [List.filter_eq_nil_iff]
        intro a ha
        rcases List.mem_map.mp ha with ⟨p, hp, rfl⟩
        rw [hall p hp]
        decide
      rw [hfil]
      rfl

/-- Witness for C9 at a one-page PDF containing the letter a. -/
theorem c9_witness :
    (∃ c ∈ (([some "a"] : List (Option String)).map (fun p => (p.getD "").data)).flatten,
      pyIsSpace c = false) ∧
    extract_text_from_pdf [some "a"] ≠ "" := by
  have hex : ∃ c ∈ (([some "a"] : List (Option String)).map
      (fun p => (p.getD "").data)).flatten, pyIsSpace c = false := by
    refine ⟨'a', by decide, by decide⟩
  exact ⟨hex, (c9_amended [some "a"]).2.1 hex⟩

/-- C10.  The request built by the multi-file summarization loop embeds
only the first 8000 characters of the extracted text in its prompt: any
two texts agreeing on their first 8000 characters produce identical
requests, and every text produces the same request as its own
8000-character truncation — content beyond that bound can never
influence the analysis. -/
theorem c10_truncation :
    (∀ t1 t2 : String, t1.data.take 8000 = t2.data.take 8000 →
      mfRequest t1 = mfRequest t2) ∧
    (∀ t : String, mfRequest t = mfRequest (pyTake 8000 t)) := by
  have key : ∀ t1 t2 : String, t1.data.take 8000 = t2.data.take 8000 →
      mfRequest t1 = mfRequest t2 := by
    intro t1 t2 h
    unfold mfRequest mfPrompt pyTake
    rw [h]
  refine ⟨key, fun t => key t (pyTake 8000 t) ?_⟩
  show t.data.take 8000 = (t.data.take 8000).take 8000
  rw [List.take_take, Nat.min_self]

/-- Witness for C10: two texts that differ only after position 8000
yield the same request. -/
theorem c10_witness :
    ((List.replicate 8000 'a' ++ ['X']).take 8000
      = (List.replicate 8000 'a' ++ ['Y']).take 8000) ∧
    mfRequest (String.mk (List.replicate 8000 'a' ++ ['X']))
      = mfRequest (String.mk (List.replicate 8000 'a' ++ ['Y'])) := by
  have heq : (List.replicate 8000 'a' ++ ['X']).take 8000
      = (List.replicate 8000 'a' ++ ['Y']).take 8000 := by
    rw [List.take_append_eq_append_take, List.take_append_eq_append_take,
        List.length_replicate]
    norm_num
  exact ⟨heq, c10_truncation.1 _ _ heq⟩
